import Mathlib

set_option autoImplicit false

namespace Serializers

/-!
Shallow embedding of the `serializers` crate (`src/lib.rs`).

The crate's data flow: a `Serializer<T>` is anything providing
`serialize_into(&self, &T, &mut Builder)`; `Builder` wraps a
`HashMap<String, Value>`; `to_value` runs `serialize_into` on a fresh
`Builder` and converts the map to a `serde_json::Value`; `serialize`
renders that value to a string, and `serialize_iter` collects
`to_value` over a sequence into a JSON array and renders it.

Modelling decisions:
* `serde_json::Value` numbers are modelled as `Int`.
* The scalar-serialization collaborator (`serde_json::to_value`, reached
  through `json!(value)` inside `Builder::attr`) is modelled by letting
  `attr` take the collaborator's outcome, an `Except String Value`; the
  `.unwrap()` panic on a failed conversion is modelled as `Except.error`
  propagation through every call frame.
* `HashMap<String, Value>` is an association list with unique keys
  maintained by `insertKV` (replace-on-existing-key, like
  `HashMap::insert`).
* `json!(map)` builds a `serde_json::Map`, a `BTreeMap`, so the value
  tree holds the entries in ascending key order: `sortKeys`.
* Rendering (`Value::to_string`) and parsing are the `serde_json`
  text layer, external to this crate; they are modelled by `renderV`
  (compact rendering, sorted objects come from `sortKeys`) and the
  fuel-indexed recursive-descent `parseJson`.
-/

/-- JSON value trees, mirroring `serde_json::Value` (numbers modelled as
`Int`; objects as key/value lists in entry order). -/
inductive Value where
  | null : Value
  | bool : Bool → Value
  | num : Int → Value
  | str : String → Value
  | arr : List Value → Value
  | obj : List (String × Value) → Value

/-- The `Builder` struct from `src/lib.rs`: wraps a `HashMap<String, Value>`,
modelled as an association list whose key-uniqueness is maintained by
`insertKV`. -/
structure Builder where
  map : List (String × Value)

/-- `HashMap::insert`: replace the value at an existing key, else add the
pair. -/
def insertKV : List (String × Value) → String → Value → List (String × Value)
  | [], k, v => [(k, v)]
  | (k', v') :: rest, k, v =>
    if k' = k then (k, v) :: rest else (k', v') :: insertKV rest k v

/-- First-match lookup in an association list. -/
def lookupKV : List (String × Value) → String → Option Value
  | [], _ => none
  | (k', v') :: rest, k => if k' = k then some v' else lookupKV rest k

/-- The keys of an association list are pairwise distinct (the `HashMap`
representation invariant). -/
def keysNodup (m : List (String × Value)) : Prop :=
  (m.map Prod.fst).Nodup

/-- Look a key up in an object-typed value tree (`none` on other shapes). -/
def objLookup : Value → String → Option Value
  | .obj m, k => lookupKV m k
  | _, _ => none

/-- Strict lexicographic order on character lists by code point (the
`BTreeMap` key order: UTF-8 byte order coincides with code-point order). -/
def strLtL : List Char → List Char → Bool
  | [], [] => false
  | [], _ :: _ => true
  | _ :: _, [] => false
  | a :: as, b :: bs =>
    if a.toNat < b.toNat then true
    else if b.toNat < a.toNat then false
    else strLtL as bs

/-- `a ≤ b` in the `BTreeMap` key order. -/
def strLe (a b : String) : Bool := !(strLtL b.data a.data)

/-- Insert a pair into a key-sorted association list (one step of the
`BTreeMap` ordering). -/
def insertSorted (p : String × Value) :
    List (String × Value) → List (String × Value)
  | [] => [p]
  | q :: rest =>
    if strLe p.1 q.1 then p :: q :: rest else q :: insertSorted p rest

/-- Sort an association list by key: `serde_json`'s object map is a
`BTreeMap`, so `json!(self.map)` lists entries in ascending key order. -/
def sortKeys : List (String × Value) → List (String × Value)
  | [] => []
  | p :: rest => insertSorted p (sortKeys rest)

/-- `Builder::new`: an empty map. -/
def Builder.new : Builder := ⟨[]⟩

/-- `Builder::to_value`: `json!(self.map)`, i.e. the accumulated map as an
object-typed value tree with entries in ascending key order. -/
def Builder.to_value (b : Builder) : Value := Value.obj (sortKeys b.map)

/-- A mapping (`Serializer<T>` in the crate): the `serialize_into`
population routine `(&T, &mut Builder)`, with panics of the scalar
collaborator surfaced as `Except.error`. -/
def Serializer (T : Type) : Type := T → Builder → Except String Builder

/-- `Serializer::to_value`: run the population routine on a fresh
`Builder`, then convert the accumulated map to a value tree. -/
def Serializer.to_value {T : Type} (s : Serializer T) (t : T) :
    Except String Value :=
  match s t Builder.new with
  | .ok b => .ok b.to_value
  | .error e => .error e

/-- `Builder::attr`: store `key → json!(value)`; a failed scalar
serialization (`unwrap` panic) aborts the call. -/
def Builder.attr (b : Builder) (key : String) (value : Except String Value) :
    Except String Builder :=
  match value with
  | .ok v => .ok ⟨insertKV b.map key v⟩
  | .error e => .error e

/-- `Builder::has_one`: serialize the associated value with the given
serializer (on a fresh `Builder`, via `Serializer::to_value`) and store the
result under `key`. -/
def Builder.has_one {V : Type} (b : Builder) (key : String) (v : V)
    (s : Serializer V) : Except String Builder :=
  match Serializer.to_value s v with
  | .ok val => .ok ⟨insertKV b.map key val⟩
  | .error e => .error e

/-- `values.into_iter().map(|v| serializer.to_value(&v)).collect()`:
serialize each element left to right; the first panic aborts. -/
def toValueList {V : Type} (s : Serializer V) :
    List V → Except String (List Value)
  | [] => .ok []
  | v :: vs =>
    match Serializer.to_value s v with
    | .error e => .error e
    | .ok val =>
      match toValueList s vs with
      | .error e => .error e
      | .ok vals => .ok (val :: vals)

/-- `Builder::has_many`: serialize each element of the sequence in order
with the given serializer and store the collected array under `key`. -/
def Builder.has_many {V : Type} (b : Builder) (key : String) (vs : List V)
    (s : Serializer V) : Except String Builder :=
  match toValueList s vs with
  | .ok vals => .ok ⟨insertKV b.map key (Value.arr vals)⟩
  | .error e => .error e

/-! ### Rendering (`Value::to_string`, the `serde_json` compact writer) -/

/-- The character `{` (written by code point to keep it out of literals). -/
def lbrace : Char := Char.ofNat 123

/-- The character `}` (written by code point to keep it out of literals). -/
def rbrace : Char := Char.ofNat 125

/-- JSON string escaping for one character (the escapes this model emits:
quote, backslash, newline, tab, carriage return). -/
def escapeChar (c : Char) : List Char :=
  if c = '"' then ['\\', '"']
  else if c = '\\' then ['\\', '\\']
  else if c = '\n' then ['\\', 'n']
  else if c = '\t' then ['\\', 't']
  else if c = '\r' then ['\\', 'r']
  else [c]

/-- Escape every character of a string body. -/
def escapeList : List Char → List Char
  | [] => []
  | c :: cs => escapeChar c ++ escapeList cs

/-- A quoted, escaped JSON string literal. -/
def renderString (s : String) : List Char :=
  '"' :: (escapeList s.data ++ ['"'])

/-- The decimal digit character for `n < 10`. -/
def digitC : Nat → Char
  | 0 => '0' | 1 => '1' | 2 => '2' | 3 => '3' | 4 => '4'
  | 5 => '5' | 6 => '6' | 7 => '7' | 8 => '8' | _ => '9'

/-- Decimal digits of a natural number, most significant first
(fuel-indexed; any `fuel > n` is enough). -/
def renderNatAux : Nat → Nat → List Char
  | 0, _ => []
  | f + 1, n =>
    if n < 10 then [digitC n]
    else renderNatAux f (n / 10) ++ [digitC (n % 10)]

/-- Decimal rendering of a natural number. -/
def renderNat (n : Nat) : List Char := renderNatAux (n + 1) n

/-- Decimal rendering of an integer. -/
def renderInt (i : Int) : List Char :=
  if i < 0 then '-' :: renderNat i.natAbs else renderNat i.natAbs

/-- The keyword emitted for `Value.null`. -/
def nullChars : List Char := ['n', 'u', 'l', 'l']

/-- The keyword emitted for `Value.bool true`. -/
def trueChars : List Char := ['t', 'r', 'u', 'e']

/-- The keyword emitted for `Value.bool false`. -/
def falseChars : List Char := ['f', 'a', 'l', 's', 'e']

mutual

/-- Compact JSON rendering of a value tree. -/
def renderV : Value → List Char
  | .null => nullChars
  | .bool true => trueChars
  | .bool false => falseChars
  | .num i => renderInt i
  | .str s => renderString s
  | .arr [] => ['[', ']']
  | .arr (x :: xs) => '[' :: ((renderV x ++ renderElems xs) ++ [']'])
  | .obj [] => [lbrace, rbrace]
  | .obj (p :: ps) => lbrace :: ((renderMember p ++ renderMembers ps) ++ [rbrace])

/-- Render the remaining array elements, each preceded by a comma. -/
def renderElems : List Value → List Char
  | [] => []
  | x :: xs => ',' :: (renderV x ++ renderElems xs)

/-- Render one object member `"key":value`. -/
def renderMember : String × Value → List Char
  | (k, v) => renderString k ++ (':' :: renderV v)

/-- Render the remaining object members, each preceded by a comma. -/
def renderMembers : List (String × Value) → List Char
  | [] => []
  | p :: ps => ',' :: (renderMember p ++ renderMembers ps)

end

/-- `Serializer::serialize`: `to_value(value).to_string()`. -/
def Serializer.serialize {T : Type} (s : Serializer T) (t : T) :
    Except String String :=
  match Serializer.to_value s t with
  | .ok v => .ok (String.mk (renderV v))
  | .error e => .error e

/-- `Serializer::serialize_iter`: collect `to_value` over the sequence and
render the array `json!(acc)`. -/
def Serializer.serialize_iter {T : Type} (s : Serializer T) (ts : List T) :
    Except String String :=
  match toValueList s ts with
  | .ok vs => .ok (String.mk (renderV (Value.arr vs)))
  | .error e => .error e

/-! ### Parsing (the parse-back collaborator used by the spec's
round-trip property; a compact-JSON recursive-descent reader) -/

/-- Decimal digit test. -/
def isDigitC (c : Char) : Bool := 48 ≤ c.toNat && c.toNat ≤ 57

/-- Value of a decimal digit character. -/
def digitVal (c : Char) : Nat := c.toNat - 48

/-- Consume a maximal run of digits, folding them onto `acc`. -/
def parseDigits : List Char → Nat → Nat × List Char
  | [], acc => (acc, [])
  | c :: cs, acc =>
    if isDigitC c then parseDigits cs (acc * 10 + digitVal c) else (acc, c :: cs)

/-- Parse an integer literal: optional minus sign, one or more digits. -/
def parseNum : List Char → Option (Int × List Char)
  | [] => none
  | c :: cs =>
    if c = '-' then
      match cs with
      | [] => none
      | d :: _ =>
        if isDigitC d then
          some (-(((parseDigits cs 0).1 : Nat) : Int), (parseDigits cs 0).2)
        else none
    else if isDigitC c then
      some ((((parseDigits (c :: cs) 0).1 : Nat) : Int),
        (parseDigits (c :: cs) 0).2)
    else none

/-- Invert `escapeChar` on the character after a backslash. -/
def unescape (c : Char) : Option Char :=
  if c = '"' then some '"'
  else if c = '\\' then some '\\'
  else if c = 'n' then some '\n'
  else if c = 't' then some '\t'
  else if c = 'r' then some '\r'
  else none

/-- Parse a string body up to the closing quote, undoing escapes. -/
def parseStrChars : List Char → Option (List Char × List Char)
  | [] => none
  | c :: cs =>
    if c = '"' then some ([], cs)
    else if c = '\\' then
      match cs with
      | [] => none
      | e :: rest =>
        match unescape e, parseStrChars rest with
        | some c0, some (s, r) => some (c0 :: s, r)
        | _, _ => none
    else
      match parseStrChars cs with
      | some (s, r) => some (c :: s, r)
      | none => none

mutual

/-- Parse one JSON value (fuel-indexed; fuel bounds the node count). -/
def parseVal : Nat → List Char → Option (Value × List Char)
  | 0, _ => none
  | _ + 1, [] => none
  | f + 1, c :: cs =>
    if c = 'n' then
      match cs with
      | 'u' :: 'l' :: 'l' :: r => some (.null, r)
      | _ => none
    else if c = 't' then
      match cs with
      | 'r' :: 'u' :: 'e' :: r => some (.bool true, r)
      | _ => none
    else if c = 'f' then
      match cs with
      | 'a' :: 'l' :: 's' :: 'e' :: r => some (.bool false, r)
      | _ => none
    else if c = '"' then
      match parseStrChars cs with
      | some (s, r) => some (.str (String.mk s), r)
      | none => none
    else if c = '[' then
      match cs with
      | ']' :: r => some (.arr [], r)
      | _ =>
        match parseElems f cs with
        | some (vs, r) => some (.arr vs, r)
        | none => none
    else if c = lbrace then
      match cs with
      | [] => none
      | c2 :: _ =>
        if c2 = rbrace then some (.obj [], cs.tail)
        else
          match parseMembers f cs with
          | some (ps, r2) => some (.obj ps, r2)
          | none => none
    else
      match parseNum (c :: cs) with
      | some (i, r) => some (.num i, r)
      | none => none

/-- Parse one or more comma-separated array elements up to `]`. -/
def parseElems : Nat → List Char → Option (List Value × List Char)
  | 0, _ => none
  | f + 1, cs =>
    match parseVal f cs with
    | none => none
    | some (v, r) =>
      match r with
      | ',' :: r2 =>
        match parseElems f r2 with
        | some (vs, r3) => some (v :: vs, r3)
        | none => none
      | ']' :: r2 => some ([v], r2)
      | _ => none

/-- Parse one or more comma-separated object members up to `}`. -/
def parseMembers : Nat → List Char →
    Option (List (String × Value) × List Char)
  | 0, _ => none
  | f + 1, cs =>
    match cs with
    | [] => none
    | c :: cs2 =>
      if c = '"' then
        match parseStrChars cs2 with
        | none => none
        | some (k, r) =>
          match r with
          | ':' :: r2 =>
            (match parseVal f r2 with
             | none => none
             | some (v, r3) =>
               match r3 with
               | [] => none
               | c3 :: r4 =>
                 if c3 = ',' then
                   match parseMembers f r4 with
                   | some (ps, r5) => some ((String.mk k, v) :: ps, r5)
                   | none => none
                 else if c3 = rbrace then some ([(String.mk k, v)], r4)
                 else none)
          | _ => none
      else none

end

/-- Parse a complete JSON document (the whole string must be consumed). -/
def parseJson (s : String) : Option Value :=
  match parseVal (s.data.length + 1) s.data with
  | some (v, []) => some v
  | _ => none

/-! ### Node counting (fuel bounds for the parser lemmas) -/

mutual

/-- Structural node count of a value tree. -/
def nodesV : Value → Nat
  | .null => 1
  | .bool _ => 1
  | .num _ => 1
  | .str _ => 1
  | .arr xs => 1 + nodesL xs
  | .obj ps => 1 + nodesM ps

/-- Node count of array elements. -/
def nodesL : List Value → Nat
  | [] => 0
  | x :: xs => 1 + nodesV x + nodesL xs

/-- Node count of object members. -/
def nodesM : List (String × Value) → Nat
  | [] => 0
  | p :: ps => 1 + nodesV p.2 + nodesM ps

end

/-- `true` when the list does not start with a decimal digit (the context
guard under which a rendered number is followed by a delimiter). -/
def headNotDigit : List Char → Bool
  | [] => true
  | c :: _ => !isDigitC c

/-! ### Mappings used by the claims -/

/-- A scalar-only mapping: its population routine calls `attr` once per
listed pair, in order, each with the listed scalar-collaborator outcome. -/
def attrFold : List (String × Except String Value) → Builder →
    Except String Builder
  | [], b => .ok b
  | (k, sv) :: rest, b =>
    match Builder.attr b k sv with
    | .ok b2 => attrFold rest b2
    | .error e => .error e

/-- The serializer whose `serialize_into` makes exactly the `attr` calls
listed in `l`, for any value of `T`. -/
def scalarMapping {T : Type} (l : List (String × Except String Value)) :
    Serializer T :=
  fun _ b => attrFold l b

/-- A mapping whose population routine writes no keys. -/
def emptyMapping {T : Type} : Serializer T := fun _ b => .ok b

/-- The tree-shaped `User { id, friends: Vec<User> }` from the spec's
recursive-mapping scenario (`examples/simple.rs` reduced to the two fields
the scenario uses). -/
inductive User where
  | mk : Nat → List User → User

mutual

/-- The self-referential mapping of the scenario: `attr(id)` then
`has_many(friends, self)` (recursion unfolded so it is structural; the
claim's theorem proves it coincides with `attr` + `has_many`). -/
def serializeUser : User → Builder → Except String Builder
  | User.mk i friends, b =>
    match Builder.attr b "id" (Except.ok (Value.num (Int.ofNat i))) with
    | .error e => .error e
    | .ok b1 =>
      match serializeUserFriends friends with
      | .error e => .error e
      | .ok vs => .ok ⟨insertKV b1.map "friends" (Value.arr vs)⟩

/-- `to_value` of `serializeUser` over each friend, in order. -/
def serializeUserFriends : List User → Except String (List Value)
  | [] => .ok []
  | u :: us =>
    match serializeUser u Builder.new with
    | .error e => .error e
    | .ok bu =>
      match serializeUserFriends us with
      | .error e => .error e
      | .ok vs => .ok (bu.to_value :: vs)

end

/-- Structural induction for `Value` with membership hypotheses for the
nested lists. -/
def Value.inductionOn (motive : Value → Prop)
    (hnull : motive .null) (hbool : ∀ b, motive (.bool b))
    (hnum : ∀ i, motive (.num i)) (hstr : ∀ s, motive (.str s))
    (harr : ∀ xs, (∀ x, x ∈ xs → motive x) → motive (.arr xs))
    (hobj : ∀ ps, (∀ p, p ∈ ps → motive p.2) → motive (.obj ps)) :
    ∀ v, motive v
  | .null => hnull
  | .bool b => hbool b
  | .num i => hnum i
  | .str s => hstr s
  | .arr xs => harr xs (fun x hx =>
      Value.inductionOn motive hnull hbool hnum hstr harr hobj x)
  | .obj ps => hobj ps (fun p hp =>
      Value.inductionOn motive hnull hbool hnum hstr harr hobj p.2)
termination_by v => sizeOf v
decreasing_by
  · have := List.sizeOf_lt_of_mem hx
    simp only [Value.arr.sizeOf_spec]
    omega
  · have h1 := List.sizeOf_lt_of_mem hp
    obtain ⟨a, b⟩ := p
    simp only [Value.obj.sizeOf_spec, Prod.mk.sizeOf_spec] at h1 ⊢
    omega

/-! ## Association-list lemmas -/

theorem lookupKV_insertKV_self (m : List (String × Value)) (k : String)
    (v : Value) : lookupKV (insertKV m k v) k = some v := by
  induction m with
  | nil => simp [insertKV, lookupKV]
  | cons p rest ih =>
    obtain ⟨k', v'⟩ := p
    by_cases h : k' = k
    · subst h
      simp [insertKV, lookupKV]
    · simp [insertKV, lookupKV, h, ih]

theorem lookupKV_insertKV_ne (m : List (String × Value)) {k k' : String}
    (v : Value) (h : k' ≠ k) :
    lookupKV (insertKV m k v) k' = lookupKV m k' := by
  induction m with
  | nil => simp [insertKV, lookupKV, Ne.symm h]
  | cons p rest ih =>
    obtain ⟨k0, v0⟩ := p
    by_cases h0 : k0 = k
    · subst h0
      simp [insertKV, lookupKV, Ne.symm h]
    · simp only [insertKV, if_neg h0, lookupKV]
      split
      · rfl
      · exact ih

theorem map_fst_insertKV (m : List (String × Value)) (k : String) (v : Value) :
    (insertKV m k v).map Prod.fst =
      if k ∈ m.map Prod.fst then m.map Prod.fst
      else m.map Prod.fst ++ [k] := by
  induction m with
  | nil => simp [insertKV]
  | cons p rest ih =>
    obtain ⟨k0, v0⟩ := p
    by_cases h0 : k0 = k
    · subst h0
      simp [insertKV]
    · simp only [insertKV, if_neg h0, List.map_cons, ih]
      by_cases hk : k ∈ rest.map Prod.fst
      · simp [hk, Ne.symm h0]
      · simp [hk, Ne.symm h0]

theorem keysNodup_insertKV {m : List (String × Value)} (k : String) (v : Value)
    (hn : keysNodup m) : keysNodup (insertKV m k v) := by
  unfold keysNodup at *
  rw [map_fst_insertKV]
  split
  · exact hn
  · rename_i hk
    simp [List.nodup_append, hn, hk]

theorem lookupKV_mem {m : List (String × Value)} {k : String} {v : Value}
    (h : lookupKV m k = some v) : (k, v) ∈ m := by
  induction m with
  | nil => simp [lookupKV] at h
  | cons p rest ih =>
    obtain ⟨k0, v0⟩ := p
    by_cases h0 : k0 = k
    · subst h0
      simp [lookupKV] at h
      simp [h]
    · simp [lookupKV, h0] at h
      simp [ih h]

theorem mem_lookupKV {m : List (String × Value)} {k : String} {v : Value}
    (hn : keysNodup m) (h : (k, v) ∈ m) : lookupKV m k = some v := by
  induction m with
  | nil => simp at h
  | cons p rest ih =>
    obtain ⟨k0, v0⟩ := p
    unfold keysNodup at hn
    simp at hn
    rcases List.mem_cons.mp h with h1 | h1
    · rw [Prod.mk.injEq] at h1
      obtain ⟨hk, hv⟩ := h1
      subst hk; subst hv
      simp [lookupKV]
    · have hk0 : k0 ≠ k := by
        intro hh
        subst hh
        exact hn.1 v (by simpa using h1)
      simp [lookupKV, hk0]
      exact ih hn.2 h1

theorem lookupKV_eq_none (m : List (String × Value)) (k : String) :
    lookupKV m k = none ↔ k ∉ m.map Prod.fst := by
  induction m with
  | nil => simp [lookupKV]
  | cons p rest ih =>
    obtain ⟨k0, v0⟩ := p
    by_cases h0 : k0 = k
    · subst h0
      simp [lookupKV]
    · simp [lookupKV, h0, ih, Ne.symm h0]

theorem insertSorted_perm (p : String × Value) (l : List (String × Value)) :
    List.Perm (insertSorted p l) (p :: l) := by
  induction l with
  | nil => simp [insertSorted]
  | cons q rest ih =>
    simp only [insertSorted]
    split
    · exact List.Perm.refl _
    · exact (ih.cons q).trans (List.Perm.swap p q rest)

theorem sortKeys_perm (m : List (String × Value)) :
    List.Perm (sortKeys m) m := by
  induction m with
  | nil => simp [sortKeys]
  | cons p rest ih =>
    exact (insertSorted_perm p (sortKeys rest)).trans (ih.cons p)

theorem keysNodup_sortKeys {m : List (String × Value)} (hn : keysNodup m) :
    keysNodup (sortKeys m) := by
  unfold keysNodup at *
  exact ((sortKeys_perm m).map Prod.fst).symm.nodup hn

theorem lookupKV_sortKeys (m : List (String × Value)) (k : String)
    (hn : keysNodup m) : lookupKV (sortKeys m) k = lookupKV m k := by
  cases h : lookupKV m k with
  | some v =>
    exact mem_lookupKV (keysNodup_sortKeys hn)
      ((sortKeys_perm m).symm.subset (lookupKV_mem h))
  | none =>
    rw [lookupKV_eq_none] at h ⊢
    intro hc
    exact h (((sortKeys_perm m).map Prod.fst).subset hc)

/-! ## Mapping-level lemmas -/

theorem attrFold_ok (l : List (String × Value)) (b : Builder) :
    attrFold (l.map fun p => (p.1, Except.ok p.2)) b =
      .ok ⟨l.foldl (fun acc p => insertKV acc p.1 p.2) b.map⟩ := by
  induction l generalizing b with
  | nil => simp [attrFold]
  | cons p rest ih =>
    obtain ⟨k, v⟩ := p
    simp [attrFold, Builder.attr, ih]

theorem attrFold_error {l : List (String × Except String Value)} {k : String}
    {e : String} (hmem : (k, Except.error e) ∈ l) (b : Builder) :
    ∃ msg, attrFold l b = .error msg := by
  induction l generalizing b with
  | nil => simp at hmem
  | cons p rest ih =>
    obtain ⟨k0, sv⟩ := p
    cases sv with
    | error e0 => exact ⟨e0, by simp [attrFold, Builder.attr]⟩
    | ok v0 =>
      have : (k, Except.error e) ∈ rest := by
        rcases List.mem_cons.mp hmem with h1 | h1
        · rw [Prod.mk.injEq] at h1
          exact absurd h1.2 (by simp)
        · exact h1
      simpa [attrFold, Builder.attr] using ih this _

theorem toValueList_ok {V : Type} {s : Serializer V} {l : List V}
    {vs : List Value} (h : toValueList s l = .ok vs) :
    vs.length = l.length ∧
      ∀ i (hi : i < l.length) (hv : i < vs.length),
        Serializer.to_value s (l.get ⟨i, hi⟩) = .ok (vs.get ⟨i, hv⟩) := by
  induction l generalizing vs with
  | nil =>
    simp [toValueList] at h
    subst h
    simp
  | cons x xs ih =>
    simp only [toValueList] at h
    cases hx : Serializer.to_value s x with
    | error e => rw [hx] at h; exact absurd h (by simp)
    | ok val =>
      rw [hx] at h
      cases hxs : toValueList s xs with
      | error e => rw [hxs] at h; exact absurd h (by simp)
      | ok vals =>
        rw [hxs] at h
        simp at h
        subst h
        obtain ⟨hlen, hpt⟩ := ih hxs
        refine ⟨by simp [hlen], ?_⟩
        intro i hi hv
        cases i with
        | zero => simpa using hx
        | succ j =>
          simp only [List.length_cons, Nat.succ_lt_succ_iff] at hi hv
          simpa using hpt j hi hv

theorem toValueList_error {V : Type} {s : Serializer V} {l : List V} {t : V}
    (ht : t ∈ l) (he : ∃ msg, Serializer.to_value s t = .error msg) :
    ∃ msg, toValueList s l = .error msg := by
  induction l with
  | nil => simp at ht
  | cons x xs ih =>
    cases hx : Serializer.to_value s x with
    | error e => exact ⟨e, by simp [toValueList, hx]⟩
    | ok val =>
      have hxs : t ∈ xs := by
        rcases List.mem_cons.mp ht with h1 | h1
        · obtain ⟨msg, hmsg⟩ := he
          rw [h1, hx] at hmsg
          exact absurd hmsg (by simp)
        · exact h1
      obtain ⟨msg, hmsg⟩ := ih hxs
      exact ⟨msg, by simp [toValueList, hx, hmsg]⟩

theorem serializeUserFriends_eq (us : List User) :
    serializeUserFriends us = toValueList serializeUser us := by
  induction us with
  | nil => rfl
  | cons u rest ih =>
    simp only [serializeUserFriends, toValueList, Serializer.to_value]
    cases h : serializeUser u Builder.new <;> simp [ih]

theorem serializeUser_eq (i : Nat) (friends : List User) (b : Builder) :
    serializeUser (User.mk i friends) b =
      match Builder.attr b "id" (Except.ok (Value.num (Int.ofNat i))) with
      | .ok b1 => Builder.has_many b1 "friends" friends serializeUser
      | .error e => .error e := by
  simp only [serializeUser, Builder.attr, Builder.has_many,
    serializeUserFriends_eq]
  cases h : toValueList serializeUser friends <;> simp

/-! ## Number rendering and parsing -/

theorem isDigitC_digitC (n : Nat) : isDigitC (digitC n) = true := by
  rcases n with _ | _ | _ | _ | _ | _ | _ | _ | _ | n <;> rfl

theorem digitVal_digitC {n : Nat} (h : n < 10) : digitVal (digitC n) = n := by
  interval_cases n <;> rfl

theorem renderNatAux_cons {f n : Nat} (h : n < f) :
    ∃ c cs, renderNatAux f n = c :: cs := by
  cases f with
  | zero => omega
  | succ f0 =>
    by_cases h10 : n < 10
    · exact ⟨digitC n, [], by simp [renderNatAux, h10]⟩
    · simp only [renderNatAux, if_neg h10]
      rcases renderNatAux f0 (n / 10) with _ | ⟨c, cs⟩
      · exact ⟨digitC (n % 10), [], rfl⟩
      · exact ⟨c, cs ++ [digitC (n % 10)], rfl⟩

theorem renderNatAux_digits {f : Nat} : ∀ {n}, n < f →
    ∀ c ∈ renderNatAux f n, isDigitC c = true := by
  induction f with
  | zero => intro n h; omega
  | succ f0 ih =>
    intro n h c hc
    by_cases h10 : n < 10
    · simp [renderNatAux, h10] at hc
      subst hc
      exact isDigitC_digitC n
    · simp only [renderNatAux, if_neg h10, List.mem_append,
        List.mem_singleton] at hc
      rcases hc with hc | hc
      · exact ih (by omega) c hc
      · subst hc
        exact isDigitC_digitC (n % 10)

theorem renderNatAux_foldl {f : Nat} : ∀ {n} (acc : Nat), n < f →
    (renderNatAux f n).foldl (fun a c => a * 10 + digitVal c) acc =
      acc * 10 ^ (renderNatAux f n).length + n := by
  induction f with
  | zero => intro n acc h; omega
  | succ f0 ih =>
    intro n acc h
    by_cases h10 : n < 10
    · simp [renderNatAux, h10, digitVal_digitC h10]
    · have hdiv : n / 10 < f0 := by omega
      simp only [renderNatAux, if_neg h10, List.foldl_append, List.foldl_cons,
        List.foldl_nil, List.length_append, List.length_singleton]
      rw [ih acc hdiv, digitVal_digitC (Nat.mod_lt n (by omega))]
      have hdm : n / 10 * 10 + n % 10 = n := by omega
      calc (acc * 10 ^ (renderNatAux f0 (n / 10)).length + n / 10) * 10 + n % 10
          = acc * (10 ^ (renderNatAux f0 (n / 10)).length * 10) +
              (n / 10 * 10 + n % 10) := by ring
        _ = acc * 10 ^ ((renderNatAux f0 (n / 10)).length + 1) + n := by
              rw [hdm, pow_succ]

theorem parseDigits_append {ds : List Char} :
    ∀ (acc : Nat) (rest : List Char), (∀ c ∈ ds, isDigitC c = true) →
    parseDigits (ds ++ rest) acc =
      parseDigits rest (ds.foldl (fun a c => a * 10 + digitVal c) acc) := by
  induction ds with
  | nil => intro acc rest _; simp
  | cons c cs ih =>
    intro acc rest hd
    have hc : isDigitC c = true := hd c (by simp)
    simp only [List.cons_append, parseDigits, hc, if_pos, List.foldl_cons]
    exact ih _ rest (fun c0 hc0 => hd c0 (by simp [hc0]))

theorem parseDigits_stop {rest : List Char} (acc : Nat)
    (hr : headNotDigit rest = true) : parseDigits rest acc = (acc, rest) := by
  cases rest with
  | nil => rfl
  | cons c cs =>
    simp only [headNotDigit, Bool.not_eq_true'] at hr
    simp [parseDigits, hr]

theorem parseDigits_renderNat (n : Nat) (rest : List Char)
    (hr : headNotDigit rest = true) :
    parseDigits (renderNat n ++ rest) 0 = (n, rest) := by
  unfold renderNat
  rw [parseDigits_append 0 rest (renderNatAux_digits (by omega)),
    parseDigits_stop _ hr, renderNatAux_foldl 0 (by omega)]
  simp

theorem isDigitC_ne {c : Char} (h : isDigitC c = true) :
    c ≠ 'n' ∧ c ≠ 't' ∧ c ≠ 'f' ∧ c ≠ '"' ∧ c ≠ '[' ∧ c ≠ lbrace ∧
      c ≠ '-' ∧ c ≠ ']' ∧ c ≠ rbrace ∧ c ≠ ',' ∧ c ≠ ':' := by
  refine ⟨?_, ?_, ?_, ?_, ?_, ?_, ?_, ?_, ?_, ?_, ?_⟩ <;>
    (intro hh; subst hh; exact absurd h (by decide))

theorem renderNat_cons (n : Nat) : ∃ c cs, renderNat n = c :: cs ∧
    isDigitC c = true := by
  obtain ⟨c, cs, hc⟩ := renderNatAux_cons (f := n + 1) (n := n) (by omega)
  refine ⟨c, cs, hc, ?_⟩
  exact renderNatAux_digits (f := n + 1) (n := n) (by omega) c (by simp [hc])

theorem renderInt_head (i : Int) :
    ∃ c cs, renderInt i = c :: cs ∧ (isDigitC c = true ∨ c = '-') := by
  unfold renderInt
  by_cases hi : i < 0
  · exact ⟨'-', renderNat i.natAbs, by simp [hi], Or.inr rfl⟩
  · obtain ⟨c, cs, hc, hdig⟩ := renderNat_cons i.natAbs
    exact ⟨c, cs, by simp [hi, hc], Or.inl hdig⟩

theorem parseNum_renderInt (i : Int) (rest : List Char)
    (hr : headNotDigit rest = true) :
    parseNum (renderInt i ++ rest) = some (i, rest) := by
  obtain ⟨d, ds, hd, hdig⟩ := renderNat_cons i.natAbs
  have hds : renderNat i.natAbs ++ rest = d :: (ds ++ rest) := by
    simp [hd]
  by_cases hi : i < 0
  · simp only [renderInt, if_pos hi, List.cons_append]
    rw [hds]
    simp only [parseNum, if_pos rfl, hdig, if_pos]
    rw [← hds, parseDigits_renderNat _ _ hr]
    show some (-((i.natAbs : Nat) : Int), rest) = some (i, rest)
    rw [show -((i.natAbs : Nat) : Int) = i from by omega]
  · simp only [renderInt, if_neg hi]
    rw [hds]
    have hdm : d ≠ '-' := (isDigitC_ne hdig).2.2.2.2.2.2.1
    simp only [parseNum, if_neg hdm, hdig, if_pos]
    rw [← hds, parseDigits_renderNat _ _ hr]
    show some (((i.natAbs : Nat) : Int), rest) = some (i, rest)
    rw [show ((i.natAbs : Nat) : Int) = i from by omega]

/-! ## String rendering and parsing -/

theorem parseStrChars_escape : ∀ (ds rest : List Char),
    parseStrChars (escapeList ds ++ ('"' :: rest)) = some (ds, rest) := by
  intro ds
  induction ds with
  | nil =>
    intro rest
    show parseStrChars ([] ++ ('"' :: rest)) = some ([], rest)
    rw [List.nil_append]
    unfold parseStrChars
    rw [if_pos rfl]
  | cons c cs ih =>
    intro rest
    by_cases h1 : c = '"'
    · subst h1
      simp [escapeList, escapeChar, parseStrChars, unescape, ih]
    · by_cases h2 : c = '\\'
      · subst h2
        simp [escapeList, escapeChar, parseStrChars, unescape, ih]
      · by_cases h3 : c = '\n'
        · subst h3
          simp [escapeList, escapeChar, parseStrChars, unescape, ih]
        · by_cases h4 : c = '\t'
          · subst h4
            simp [escapeList, escapeChar, parseStrChars, unescape, ih]
          · by_cases h5 : c = '\r'
            · subst h5
              simp [escapeList, escapeChar, parseStrChars, unescape, ih]
            · have he : escapeChar c = [c] := by
                simp [escapeChar, h1, h2, h3, h4, h5]
              simp only [escapeList, he, List.cons_append, List.nil_append,
                List.append_assoc]
              unfold parseStrChars
              rw [if_neg h1, if_neg h2, ih]

theorem renderV_head (v : Value) :
    ∃ c cs, renderV v = c :: cs ∧ c ≠ ']' := by
  cases v with
  | null => exact ⟨'n', _, rfl, by decide⟩
  | bool b =>
    cases b
    · exact ⟨'f', _, rfl, by decide⟩
    · exact ⟨'t', _, rfl, by decide⟩
  | num i =>
    obtain ⟨c, cs, hc, hd⟩ := renderInt_head i
    refine ⟨c, cs, by simp [renderV, hc], ?_⟩
    rcases hd with hd | hd
    · exact (isDigitC_ne hd).2.2.2.2.2.2.2.1
    · subst hd; decide
  | str s => exact ⟨'"', escapeList s.data ++ ['"'], rfl, by decide⟩
  | arr xs =>
    cases xs
    · exact ⟨'[', _, rfl, by decide⟩
    · exact ⟨'[', _, rfl, by decide⟩
  | obj ps =>
    cases ps
    · exact ⟨lbrace, _, rfl, by decide⟩
    · exact ⟨lbrace, _, rfl, by decide⟩

/-! ## Parser dispatch lemmas -/

theorem parseVal_null (f : Nat) (rest : List Char) :
    parseVal (f + 1) ('n' :: 'u' :: 'l' :: 'l' :: rest) =
      some (.null, rest) := by
  simp only [parseVal, reduceIte]

theorem parseVal_true (f : Nat) (rest : List Char) :
    parseVal (f + 1) ('t' :: 'r' :: 'u' :: 'e' :: rest) =
      some (.bool true, rest) := by
  simp only [parseVal, reduceIte]
  rw [if_neg (by decide)]

theorem parseVal_false (f : Nat) (rest : List Char) :
    parseVal (f + 1) ('f' :: 'a' :: 'l' :: 's' :: 'e' :: rest) =
      some (.bool false, rest) := by
  simp only [parseVal, reduceIte]
  rw [if_neg (by decide), if_neg (by decide)]

theorem parseVal_str (f : Nat) (ds rest : List Char) :
    parseVal (f + 1) ('"' :: (escapeList ds ++ ('"' :: rest))) =
      some (.str (String.mk ds), rest) := by
  simp only [parseVal, reduceIte, parseStrChars_escape]
  rw [if_neg (by decide), if_neg (by decide), if_neg (by decide)]

theorem parseVal_num (f : Nat) (i : Int) (rest : List Char)
    (hr : headNotDigit rest = true) :
    parseVal (f + 1) (renderInt i ++ rest) = some (.num i, rest) := by
  obtain ⟨c, cs0, hc, hd⟩ := renderInt_head i
  have hp := parseNum_renderInt i rest hr
  rw [hc] at hp ⊢
  have hcond : c ≠ 'n' ∧ c ≠ 't' ∧ c ≠ 'f' ∧ c ≠ '"' ∧ c ≠ '[' ∧
      c ≠ lbrace := by
    rcases hd with hd | hd
    · obtain ⟨h1, h2, h3, h4, h5, h6, _⟩ := isDigitC_ne hd
      exact ⟨h1, h2, h3, h4, h5, h6⟩
    · subst hd; refine ⟨by decide, by decide, by decide, by decide,
        by decide, by decide⟩
  obtain ⟨h1, h2, h3, h4, h5, h6⟩ := hcond
  rw [List.cons_append]
  simp only [parseVal]
  rw [if_neg h1, if_neg h2, if_neg h3, if_neg h4, if_neg h5, if_neg h6,
    ← List.cons_append, hp]

theorem parseVal_arrNil (f : Nat) (rest : List Char) :
    parseVal (f + 1) ('[' :: (']' :: rest)) = some (.arr [], rest) := by
  simp only [parseVal, reduceIte]
  rw [if_neg (by decide), if_neg (by decide), if_neg (by decide),
    if_neg (by decide)]

theorem parseVal_arrCons (f : Nat) (cs : List Char) (c0 : Char)
    (t : List Char) (h : cs = c0 :: t) (hc0 : c0 ≠ ']') :
    parseVal (f + 1) ('[' :: cs) =
      match parseElems f cs with
      | some (vs, r) => some (.arr vs, r)
      | none => none := by
  subst h
  simp only [parseVal, reduceIte]
  rw [if_neg (by decide), if_neg (by decide), if_neg (by decide),
    if_neg (by decide)]
  split
  · rename_i r heq
    exact absurd (List.cons.inj heq).1 hc0
  · rfl

theorem parseVal_objNil (f : Nat) (rest : List Char) :
    parseVal (f + 1) (lbrace :: (rbrace :: rest)) = some (.obj [], rest) := by
  simp only [parseVal, reduceIte, show (lbrace = 'n') = False from by decide,
    show (lbrace = 't') = False from by decide,
    show (lbrace = 'f') = False from by decide,
    show (lbrace = '"') = False from by decide,
    show (lbrace = '[') = False from by decide,
    show (rbrace = rbrace) = True from by simp, List.tail_cons]

theorem parseVal_objCons (f : Nat) (cs : List Char) (c0 : Char)
    (t : List Char) (h : cs = c0 :: t) (hc0 : c0 ≠ rbrace) :
    parseVal (f + 1) (lbrace :: cs) =
      match parseMembers f cs with
      | some (ps, r) => some (.obj ps, r)
      | none => none := by
  subst h
  simp only [parseVal, reduceIte, show (lbrace = 'n') = False from by decide,
    show (lbrace = 't') = False from by decide,
    show (lbrace = 'f') = False from by decide,
    show (lbrace = '"') = False from by decide,
    show (lbrace = '[') = False from by decide, if_neg hc0]

theorem parseElems_last (f : Nat) (cs : List Char) (v : Value)
    (rest : List Char) (h : parseVal f cs = some (v, ']' :: rest)) :
    parseElems (f + 1) cs = some ([v], rest) := by
  simp only [parseElems, reduceIte, h]

theorem parseElems_cons (f : Nat) (cs cs2 : List Char) (v : Value)
    (vs : List Value) (r3 : List Char)
    (h1 : parseVal f cs = some (v, ',' :: cs2))
    (h2 : parseElems f cs2 = some (vs, r3)) :
    parseElems (f + 1) cs = some (v :: vs, r3) := by
  simp only [parseElems, reduceIte, h1, h2]

theorem parseMembers_last (f : Nat) (cs2 : List Char) (k : List Char)
    (v : Value) (r2 r4 : List Char)
    (h1 : parseStrChars cs2 = some (k, ':' :: r2))
    (h2 : parseVal f r2 = some (v, rbrace :: r4)) :
    parseMembers (f + 1) ('"' :: cs2) = some ([(String.mk k, v)], r4) := by
  simp only [parseMembers, reduceIte, h1, h2,
    show (rbrace = ',') = False from by decide,
    show (rbrace = rbrace) = True from by simp]

theorem parseMembers_cons (f : Nat) (cs2 : List Char) (k : List Char)
    (v : Value) (r2 r4 r5 : List Char) (ps : List (String × Value))
    (h1 : parseStrChars cs2 = some (k, ':' :: r2))
    (h2 : parseVal f r2 = some (v, ',' :: r4))
    (h3 : parseMembers f r4 = some (ps, r5)) :
    parseMembers (f + 1) ('"' :: cs2) =
      some ((String.mk k, v) :: ps, r5) := by
  simp only [parseMembers, reduceIte, h1, h2, h3]

/-! ## The rendering/parsing round trip -/

theorem parse_render_fuel : ∀ f : Nat,
    (∀ v rest, nodesV v < f → headNotDigit rest = true →
      parseVal f (renderV v ++ rest) = some (v, rest)) ∧
    (∀ x xs rest, nodesL (x :: xs) < f →
      parseElems f (renderV x ++ (renderElems xs ++ (']' :: rest))) =
        some (x :: xs, rest)) ∧
    (∀ k v ps rest, nodesM ((k, v) :: ps) < f →
      parseMembers f ('"' :: (escapeList k.data ++ ('"' :: (':' ::
        (renderV v ++ (renderMembers ps ++ (rbrace :: rest))))))) =
        some ((k, v) :: ps, rest)) := by
  intro f
  induction f with
  | zero =>
    refine ⟨fun v rest h _ => absurd h (by omega),
      fun x xs rest h => absurd h (by omega),
      fun k v ps rest h => absurd h (by omega)⟩
  | succ f ih =>
    obtain ⟨ihV, ihE, ihM⟩ := ih
    refine ⟨?_, ?_, ?_⟩
    · intro v rest hn hr
      cases v with
      | null => exact parseVal_null f rest
      | bool b =>
        cases b
        · exact parseVal_false f rest
        · exact parseVal_true f rest
      | num i => exact parseVal_num f i rest hr
      | str s =>
        simp only [renderV, renderString, List.cons_append,
          List.append_assoc, List.singleton_append, List.nil_append]
        exact parseVal_str f s.data rest
      | arr xs =>
        cases xs with
        | nil => exact parseVal_arrNil f rest
        | cons x xs =>
          simp only [nodesV, nodesL] at hn
          simp only [renderV, List.cons_append, List.append_assoc,
            List.singleton_append, List.nil_append]
          obtain ⟨c0, t, hc, hne⟩ := renderV_head x
          rw [parseVal_arrCons f _ c0
            (t ++ (renderElems xs ++ (']' :: rest)))
            (by rw [hc]; rfl) hne]
          rw [ihE x xs rest (by simp only [nodesL]; omega)]
      | obj ps =>
        cases ps with
        | nil => exact parseVal_objNil f rest
        | cons p ps =>
          obtain ⟨k, v⟩ := p
          simp only [nodesV, nodesM] at hn
          simp only [renderV, renderMember, renderString, List.cons_append,
            List.append_assoc, List.singleton_append, List.nil_append]
          rw [parseVal_objCons f _ '"' _ rfl (by decide)]
          rw [ihM k v ps rest (by simp only [nodesM]; omega)]
    · intro x xs rest hn
      simp only [nodesL] at hn
      have hx := ihV x (renderElems xs ++ (']' :: rest)) (by omega)
        (by cases xs <;> rfl)
      cases xs with
      | nil =>
        refine parseElems_last f _ x rest ?_
        simpa [renderElems] using hx
      | cons y ys =>
        refine parseElems_cons f _
          (renderV y ++ (renderElems ys ++ (']' :: rest))) x (y :: ys)
          rest ?_ ?_
        · simpa [renderElems, List.cons_append, List.append_assoc,
            List.nil_append] using hx
        · exact ihE y ys rest (by simp only [nodesL] at hn ⊢; omega)
    · intro k v ps rest hn
      simp only [nodesM] at hn
      have hv := ihV v (renderMembers ps ++ (rbrace :: rest)) (by omega)
        (by cases ps <;> rfl)
      cases ps with
      | nil =>
        refine parseMembers_last f _ k.data v
          (renderV v ++ (renderMembers [] ++ (rbrace :: rest))) rest ?_ ?_
        · exact parseStrChars_escape k.data _
        · simpa [renderMembers] using hv
      | cons q qs =>
        obtain ⟨k2, v2⟩ := q
        refine parseMembers_cons f _ k.data v
          (renderV v ++ (renderMembers ((k2, v2) :: qs) ++ (rbrace :: rest)))
          (renderMember (k2, v2) ++ (renderMembers qs ++ (rbrace :: rest)))
          rest ((k2, v2) :: qs) ?_ ?_ ?_
        · exact parseStrChars_escape k.data _
        · simpa [renderMembers, renderMember, renderString,
            List.cons_append, List.append_assoc, List.nil_append] using hv
        · have hq := ihM k2 v2 qs rest
            (by simp only [nodesM] at hn ⊢; omega)
          simpa [renderMembers, renderMember, renderString,
            List.cons_append, List.append_assoc, List.nil_append] using hq

theorem nodesL_le_renderElems (ys : List Value)
    (ih : ∀ y, y ∈ ys → nodesV y ≤ (renderV y).length) :
    nodesL ys ≤ (renderElems ys).length := by
  induction ys with
  | nil => simp [nodesL, renderElems]
  | cons y ys ihy =>
    simp only [nodesL, renderElems, List.length_cons, List.length_append]
    have h1 := ih y (by simp)
    have h2 := ihy (fun z hz => ih z (by simp [hz]))
    omega

theorem nodesM_le_renderMembers (ps : List (String × Value))
    (ih : ∀ p, p ∈ ps → nodesV p.2 ≤ (renderV p.2).length) :
    nodesM ps ≤ (renderMembers ps).length := by
  induction ps with
  | nil => simp [nodesM, renderMembers]
  | cons p ps ihp =>
    obtain ⟨k, v⟩ := p
    have h1 := ih (k, v) (by simp)
    have h2 := ihp (fun q hq => ih q (by simp [hq]))
    simp only [nodesM, renderMembers, renderMember, renderString,
      List.length_cons, List.length_append] at h1 ⊢
    omega

theorem nodesV_le_renderV (v : Value) : nodesV v ≤ (renderV v).length := by
  induction v using Value.inductionOn with
  | hnull => simp [nodesV, renderV, nullChars]
  | hbool b => cases b <;> simp [nodesV, renderV, trueChars, falseChars]
  | hnum i =>
    obtain ⟨c, cs, hc, _⟩ := renderInt_head i
    simp [nodesV, renderV, hc]
  | hstr s => simp [nodesV, renderV, renderString]
  | harr xs ih =>
    cases xs with
    | nil => simp [nodesV, nodesL, renderV]
    | cons x xs =>
      have h1 := ih x (by simp)
      have h2 := nodesL_le_renderElems xs (fun y hy => ih y (by simp [hy]))
      simp only [nodesV, nodesL, renderV, List.length_cons,
        List.length_append, List.length_singleton]
      omega
  | hobj ps ih =>
    cases ps with
    | nil => simp [nodesV, nodesM, renderV]
    | cons p ps =>
      obtain ⟨k, v⟩ := p
      have h1 := ih (k, v) (by simp)
      have h2 := nodesM_le_renderMembers ps (fun q hq => ih q (by simp [hq]))
      simp only [nodesV, nodesM, renderV, renderMember, renderString,
        List.length_cons, List.length_append, List.length_singleton] at h1 ⊢
      omega

/-- Rendering then parsing gives back the same value tree: the parse-back
collaborator inverts the writer on every value this engine can emit. -/
theorem parseJson_renderV (v : Value) :
    parseJson (String.mk (renderV v)) = some v := by
  have hlen : nodesV v < (renderV v).length + 1 :=
    Nat.lt_succ_of_le (nodesV_le_renderV v)
  have h := (parse_render_fuel ((renderV v).length + 1)).1 v [] hlen rfl
  rw [List.append_nil] at h
  show (match parseVal ((renderV v).length + 1) (renderV v) with
    | some (v, []) => some v
    | _ => none) = some v
  rw [h]

/-! ## Remaining helper lemmas -/

theorem to_value_obj {T : Type} {s : Serializer T} {t : T} {val : Value}
    (h : Serializer.to_value s t = .ok val) :
    ∃ m, val = Value.obj m := by
  unfold Serializer.to_value at h
  cases hb : s t Builder.new with
  | ok b =>
    rw [hb] at h
    simp at h
    exact ⟨sortKeys b.map, h.symm⟩
  | error e =>
    rw [hb] at h
    exact absurd h (by simp)

theorem keysNodup_foldl (l : List (String × Value))
    (m : List (String × Value)) (hm : keysNodup m) :
    keysNodup (l.foldl (fun acc p => insertKV acc p.1 p.2) m) := by
  induction l generalizing m with
  | nil => exact hm
  | cons p rest ih =>
    exact ih (insertKV m p.1 p.2) (keysNodup_insertKV p.1 p.2 hm)

theorem lookupKV_foldl (l : List (String × Value))
    (mm : List (String × Value)) (k : String) :
    lookupKV (l.foldl (fun acc p => insertKV acc p.1 p.2) mm) k =
      match lookupKV l.reverse k with
      | some v => some v
      | none => lookupKV mm k := by
  induction l using List.reverseRecOn generalizing mm with
  | nil => simp [lookupKV]
  | append_singleton l p ih =>
    obtain ⟨k0, v0⟩ := p
    rw [List.foldl_append]
    simp only [List.foldl_cons, List.foldl_nil, List.reverse_append,
      List.reverse_cons, List.reverse_nil, List.nil_append,
      List.cons_append, List.singleton_append]
    by_cases hk : k0 = k
    · subst hk
      simp [lookupKV, lookupKV_insertKV_self]
    · rw [lookupKV_insertKV_ne _ _ (Ne.symm hk), ih]
      simp [lookupKV, hk]

/-! ## Claim theorems -/

/-- C10: `serialize_iter` over an empty sequence of values returns the
two-character JSON array document `[]` — not an error and not the empty
string. -/
theorem serialize_iter_empty (T : Type) (s : Serializer T) :
    Serializer.serialize_iter s ([] : List T) = .ok "[]" := rfl

/-- C9: `to_value` only ever produces an object-typed value tree; a
mapping that writes no keys serializes to the document made of the two
brace characters. -/
theorem to_value_always_object :
    (∀ (T : Type) (s : Serializer T) (t : T) (val : Value),
      Serializer.to_value s t = .ok val → ∃ m, val = Value.obj m) ∧
    (∀ (T : Type) (t : T),
      Serializer.serialize (emptyMapping : Serializer T) t =
        .ok "\x7b\x7d") := by
  constructor
  · intro T s t val h
    exact to_value_obj h
  · intro T t
    rfl

/-- Witness for C9 at the concrete mapping `emptyMapping` on `0 : Nat`. -/
theorem to_value_always_object_witness :
    (Serializer.to_value (emptyMapping : Serializer Nat) 0 =
      .ok (Value.obj [])) ∧ ∃ m, Value.obj [] = Value.obj m :=
  ⟨rfl, to_value_always_object.1 Nat emptyMapping 0 (Value.obj []) rfl⟩

/-- C6: `has_one` runs the given mapping on the value with a freshly
created `Builder`, converts that builder's map to a value tree, and stores
the result under the key. -/
theorem has_one_spec {V : Type} (b : Builder) (k : String) (v : V)
    (s : Serializer V) (bf : Builder) (h : s v Builder.new = .ok bf) :
    Builder.has_one b k v s = .ok ⟨insertKV b.map k bf.to_value⟩ ∧
      lookupKV (insertKV b.map k bf.to_value) k = some bf.to_value := by
  constructor
  · unfold Builder.has_one Serializer.to_value
    rw [h]
  · exact lookupKV_insertKV_self _ _ _

/-- Witness for C6: a one-field country-style mapping stored under
`"country"`. -/
theorem has_one_spec_witness :
    ((fun (n : Nat) (b : Builder) =>
        Builder.attr b "id" (.ok (Value.num 7))) 7 Builder.new =
      .ok ⟨[("id", Value.num 7)]⟩) ∧
    (Builder.has_one Builder.new "country" 7
        (fun (n : Nat) (b : Builder) =>
          Builder.attr b "id" (.ok (Value.num 7))) =
      .ok ⟨insertKV Builder.new.map "country"
        (Builder.to_value ⟨[("id", Value.num 7)]⟩)⟩ ∧
      lookupKV (insertKV Builder.new.map "country"
          (Builder.to_value ⟨[("id", Value.num 7)]⟩)) "country" =
        some (Builder.to_value ⟨[("id", Value.num 7)]⟩)) :=
  ⟨rfl, has_one_spec Builder.new "country" 7 _ ⟨[("id", Value.num 7)]⟩ rfl⟩

/-- C4: `has_many` on an empty input sequence stores the empty array at
the key: the call succeeds, the stored value is `[]` (never `null`), and
the key is present in the rendered object. -/
theorem has_many_empty {V : Type} (b : Builder) (k : String)
    (s : Serializer V) (hn : keysNodup b.map) :
    ∃ b', Builder.has_many b k ([] : List V) s = .ok b' ∧
      lookupKV b'.map k = some (Value.arr []) ∧
      objLookup b'.to_value k = some (Value.arr []) ∧
      Value.arr [] ≠ Value.null := by
  refine ⟨⟨insertKV b.map k (Value.arr [])⟩, rfl,
    lookupKV_insertKV_self _ _ _, ?_, by simp⟩
  have hn2 := keysNodup_insertKV k (Value.arr []) hn
  simp only [objLookup, Builder.to_value, lookupKV_sortKeys _ _ hn2]
  exact lookupKV_insertKV_self _ _ _

/-- Witness for C4 on a fresh builder with key `"friends"`. -/
theorem has_many_empty_witness :
    keysNodup Builder.new.map ∧
    ∃ b', Builder.has_many Builder.new "friends" ([] : List Nat)
        emptyMapping = .ok b' ∧
      lookupKV b'.map "friends" = some (Value.arr []) ∧
      objLookup b'.to_value "friends" = some (Value.arr []) ∧
      Value.arr [] ≠ Value.null :=
  ⟨by simp [keysNodup, Builder.new],
    has_many_empty Builder.new "friends" emptyMapping
      (by simp [keysNodup, Builder.new])⟩

/-- C2: calling `attr` twice with the same key keeps the second value —
the builder's map binds the key to the second value, and so does the
rendered object (last write wins, no error). -/
theorem attr_overwrite (b : Builder) (k : String) (v1 v2 : Value)
    (hn : keysNodup b.map) :
    ∃ b2, (match Builder.attr b k (.ok v1) with
        | .ok b1 => Builder.attr b1 k (.ok v2)
        | .error e => .error e) = .ok b2 ∧
      lookupKV b2.map k = some v2 ∧
      objLookup b2.to_value k = some v2 := by
  refine ⟨⟨insertKV (insertKV b.map k v1) k v2⟩, rfl, ?_, ?_⟩
  · exact lookupKV_insertKV_self _ _ _
  · have hn2 : keysNodup (insertKV (insertKV b.map k v1) k v2) :=
      keysNodup_insertKV _ _ (keysNodup_insertKV _ _ hn)
    simp only [objLookup, Builder.to_value, lookupKV_sortKeys _ _ hn2]
    exact lookupKV_insertKV_self _ _ _

/-- Witness for C2: `attr("id", 1)` then `attr("id", 2)` on one fresh
builder renders to an object with `"id" : 2`. -/
theorem attr_overwrite_witness :
    keysNodup Builder.new.map ∧
    ∃ b2, (match Builder.attr Builder.new "id" (.ok (Value.num 1)) with
        | .ok b1 => Builder.attr b1 "id" (.ok (Value.num 2))
        | .error e => .error e) = .ok b2 ∧
      lookupKV b2.map "id" = some (Value.num 2) ∧
      objLookup b2.to_value "id" = some (Value.num 2) :=
  ⟨by simp [keysNodup, Builder.new],
    attr_overwrite Builder.new "id" (Value.num 1) (Value.num 2)
      (by simp [keysNodup, Builder.new])⟩

/-- C1: a scalar-serialization failure on any one `attr` field makes the
whole `serialize` call fail, no success value (hence no partial document)
is observable, and the failure propagates through `serialize_iter` for any
sequence containing the value. -/
theorem scalar_failure_aborts {T : Type} (t : T)
    (l : List (String × Except String Value)) (k e : String)
    (hmem : (k, Except.error e) ∈ l) :
    (∃ msg, Serializer.serialize (scalarMapping l) t = .error msg) ∧
    (∀ str, Serializer.serialize (scalarMapping l) t ≠ .ok str) ∧
    (∀ ts : List T, t ∈ ts →
      ∀ str, Serializer.serialize_iter (scalarMapping l) ts ≠ .ok str) := by
  obtain ⟨msg, hmsg⟩ := attrFold_error hmem Builder.new
  have hto : Serializer.to_value (scalarMapping l) t = .error msg := by
    simp only [Serializer.to_value, scalarMapping]
    rw [hmsg]
  refine ⟨⟨msg, ?_⟩, ?_, ?_⟩
  · unfold Serializer.serialize
    rw [hto]
  · intro str hstr
    unfold Serializer.serialize at hstr
    rw [hto] at hstr
    exact absurd hstr (by simp)
  · intro ts hts str hstr
    obtain ⟨msg2, hmsg2⟩ := toValueList_error hts ⟨msg, hto⟩
    unfold Serializer.serialize_iter at hstr
    rw [hmsg2] at hstr
    exact absurd hstr (by simp)

/-- Witness for C1: a two-field scalar mapping whose second field's scalar
serialization fails makes `serialize` fail. -/
theorem scalar_failure_aborts_witness :
    (("bad", Except.error "nan") ∈
      ([("id", Except.ok (Value.num 1)), ("bad", Except.error "nan")] :
        List (String × Except String Value))) ∧
    (∃ msg, Serializer.serialize
      (scalarMapping [("id", Except.ok (Value.num 1)),
        ("bad", Except.error "nan")] : Serializer Nat) 0 = .error msg) :=
  ⟨by simp, (scalar_failure_aborts 0
    [("id", Except.ok (Value.num 1)), ("bad", Except.error "nan")]
    "bad" "nan" (by simp)).1⟩

/-- C3: a successful `has_many` stores under the key an array of the same
length as the input whose `i`-th element is `to_value` of the `i`-th input
element (input order preserved, each via a fresh builder inside
`to_value`). -/
theorem has_many_order {V : Type} (b : Builder) (k : String) (l : List V)
    (s : Serializer V) (b' : Builder)
    (h : Builder.has_many b k l s = .ok b') :
    ∃ vs : List Value, b' = ⟨insertKV b.map k (Value.arr vs)⟩ ∧
      lookupKV b'.map k = some (Value.arr vs) ∧
      vs.length = l.length ∧
      ∀ i (hi : i < l.length) (hv : i < vs.length),
        Serializer.to_value s (l.get ⟨i, hi⟩) = .ok (vs.get ⟨i, hv⟩) := by
  unfold Builder.has_many at h
  cases hl : toValueList s l with
  | error e =>
    rw [hl] at h
    exact absurd h (by simp)
  | ok vs =>
    rw [hl] at h
    injection h with h2
    subst h2
    obtain ⟨hlen, hpt⟩ := toValueList_ok hl
    exact ⟨vs, rfl, lookupKV_insertKV_self _ _ _, hlen, hpt⟩

/-- Witness for C3: a two-element sequence mapped by an `attr`-one-field
serializer, checked at the concrete resulting builder. -/
theorem has_many_order_witness :
    (Builder.has_many Builder.new "xs" [10, 20]
        (fun (n : Nat) (b : Builder) =>
          Builder.attr b "n" (.ok (Value.num (Int.ofNat n)))) =
      .ok ⟨[("xs", Value.arr [Value.obj [("n", Value.num 10)],
        Value.obj [("n", Value.num 20)]])]⟩) ∧
    (∃ vs : List Value,
      (⟨[("xs", Value.arr [Value.obj [("n", Value.num 10)],
          Value.obj [("n", Value.num 20)]])]⟩ : Builder) =
        ⟨insertKV Builder.new.map "xs" (Value.arr vs)⟩ ∧
      lookupKV (⟨[("xs", Value.arr [Value.obj [("n", Value.num 10)],
          Value.obj [("n", Value.num 20)]])]⟩ : Builder).map "xs" =
        some (Value.arr vs) ∧
      vs.length = [10, 20].length ∧
      ∀ i (hi : i < [10, 20].length) (hv : i < vs.length),
        Serializer.to_value
          (fun (n : Nat) (b : Builder) =>
            Builder.attr b "n" (.ok (Value.num (Int.ofNat n))))
          ([10, 20].get ⟨i, hi⟩) = .ok (vs.get ⟨i, hv⟩)) :=
  ⟨rfl, has_many_order Builder.new "xs" [10, 20] _ _ rfl⟩

/-- C5: `serialize_iter` over `[x, y]` renders the one JSON array whose
elements are the value trees of `x` then `y`; that string parses back as
that single array document, and it is never the concatenation of the two
independent `serialize` outputs. -/
theorem serialize_iter_pair {T : Type} (s : Serializer T) (x y : T)
    (tx ty : Value) (hx : Serializer.to_value s x = .ok tx)
    (hy : Serializer.to_value s y = .ok ty) :
    Serializer.serialize_iter s [x, y] =
      .ok (String.mk (renderV (Value.arr [tx, ty]))) ∧
    parseJson (String.mk (renderV (Value.arr [tx, ty]))) =
      some (Value.arr [tx, ty]) ∧
    (∀ sx sy, Serializer.serialize s x = .ok sx →
      Serializer.serialize s y = .ok sy →
      String.mk (renderV (Value.arr [tx, ty])) ≠ sx ++ sy) := by
  refine ⟨?_, parseJson_renderV _, ?_⟩
  · unfold Serializer.serialize_iter
    have hl : toValueList s [x, y] = .ok [tx, ty] := by
      simp [toValueList, hx, hy]
    rw [hl]
  · intro sx sy hsx hsy hcontra
    obtain ⟨m, hm⟩ := to_value_obj hx
    subst hm
    unfold Serializer.serialize at hsx
    rw [hx] at hsx
    injection hsx with hsx2
    subst hsx2
    have hdata : renderV (Value.arr [Value.obj m, ty]) =
        renderV (Value.obj m) ++ sy.data := congrArg String.data hcontra
    obtain ⟨t0, ht0⟩ : ∃ t0, renderV (Value.obj m) = lbrace :: t0 := by
      cases m with
      | nil => exact ⟨[rbrace], rfl⟩
      | cons p ps => exact ⟨_, rfl⟩
    obtain ⟨tL, hTL⟩ : ∃ tL,
        renderV (Value.arr [Value.obj m, ty]) = '[' :: tL := ⟨_, rfl⟩
    rw [hTL, ht0, List.cons_append] at hdata
    exact absurd (List.cons.inj hdata).1 (by decide)

/-- Witness for C5 with a one-field serializer on `[1, 2]`. -/
theorem serialize_iter_pair_witness :
    (Serializer.to_value
      (fun (n : Nat) (b : Builder) =>
        Builder.attr b "n" (.ok (Value.num (Int.ofNat n)))) 1 =
      .ok (Value.obj [("n", Value.num 1)])) ∧
    (Serializer.to_value
      (fun (n : Nat) (b : Builder) =>
        Builder.attr b "n" (.ok (Value.num (Int.ofNat n)))) 2 =
      .ok (Value.obj [("n", Value.num 2)])) ∧
    (Serializer.serialize_iter
        (fun (n : Nat) (b : Builder) =>
          Builder.attr b "n" (.ok (Value.num (Int.ofNat n)))) [1, 2] =
      .ok (String.mk (renderV (Value.arr [Value.obj [("n", Value.num 1)],
        Value.obj [("n", Value.num 2)]]))) ∧
    parseJson (String.mk (renderV (Value.arr [Value.obj [("n", Value.num 1)],
        Value.obj [("n", Value.num 2)]]))) =
      some (Value.arr [Value.obj [("n", Value.num 1)],
        Value.obj [("n", Value.num 2)]]) ∧
    (∀ sx sy, Serializer.serialize
        (fun (n : Nat) (b : Builder) =>
          Builder.attr b "n" (.ok (Value.num (Int.ofNat n)))) 1 = .ok sx →
      Serializer.serialize
        (fun (n : Nat) (b : Builder) =>
          Builder.attr b "n" (.ok (Value.num (Int.ofNat n)))) 2 = .ok sy →
      String.mk (renderV (Value.arr [Value.obj [("n", Value.num 1)],
        Value.obj [("n", Value.num 2)]])) ≠ sx ++ sy)) :=
  ⟨rfl, rfl, serialize_iter_pair _ 1 2 _ _ rfl rfl⟩

/-- C7: a scalar-only mapping (a list of `attr` calls, all of whose scalar
serializations succeed) serializes to a string that parses back to an
object whose key set is exactly the declared attribute keys, each bound to
the scalar serialization of the corresponding (last-written) value. -/
theorem scalar_roundtrip {T : Type} (t : T) (l : List (String × Value)) :
    ∃ out m, Serializer.serialize
        (scalarMapping (l.map fun p => (p.1, Except.ok p.2))) t =
          .ok out ∧
      parseJson out = some (Value.obj m) ∧
      (∀ k, (∃ v, lookupKV m k = some v) ↔ k ∈ l.map Prod.fst) ∧
      (∀ k, lookupKV m k = lookupKV l.reverse k) := by
  have hser : Serializer.serialize
      (scalarMapping (l.map fun p => (p.1, Except.ok p.2)) : Serializer T)
      t = .ok (String.mk (renderV (Value.obj (sortKeys
        (l.foldl (fun acc p => insertKV acc p.1 p.2) []))))) := by
    simp only [Serializer.serialize, Serializer.to_value, scalarMapping]
    rw [attrFold_ok l Builder.new]
    rfl
  refine ⟨_, sortKeys (l.foldl (fun acc p => insertKV acc p.1 p.2) []),
    hser, parseJson_renderV _, ?_, ?_⟩
  all_goals
    have hnod : keysNodup (l.foldl (fun acc p => insertKV acc p.1 p.2) []) :=
      keysNodup_foldl l [] (by simp [keysNodup])
  all_goals
    have hfold2 : ∀ k,
        lookupKV (l.foldl (fun acc p => insertKV acc p.1 p.2) []) k =
          lookupKV l.reverse k := by
      intro k
      rw [lookupKV_foldl l [] k]
      rcases hc : lookupKV l.reverse k with _ | v <;> simp [lookupKV]
  · intro k
    rw [lookupKV_sortKeys _ _ hnod, hfold2 k]
    constructor
    · rintro ⟨v, hv⟩
      have hmem := List.mem_reverse.mp (lookupKV_mem hv)
      exact List.mem_map.mpr ⟨(k, v), hmem, rfl⟩
    · intro hk
      cases hv : lookupKV l.reverse k with
      | some v => exact ⟨v, rfl⟩
      | none =>
        rw [lookupKV_eq_none] at hv
        refine absurd ?_ hv
        rw [List.map_reverse, List.mem_reverse]
        exact hk
  · intro k
    rw [lookupKV_sortKeys _ _ hnod, hfold2 k]

/-- C8: the self-recursive user mapping is total in this embedding (it is
a well-defined function, so it terminates on every tree-shaped value), it
coincides with `attr("id")` followed by `has_many("friends", self)`, and
on `User{id:1, friends:[User{id:2, friends:[]}]}` its value tree is the
manually nested object with keys `friends` and `id`. -/
theorem recursive_user_mapping :
    (∀ i friends b, serializeUser (User.mk i friends) b =
      match Builder.attr b "id" (Except.ok (Value.num (Int.ofNat i))) with
      | .ok b1 => Builder.has_many b1 "friends" friends serializeUser
      | .error e => .error e) ∧
    Serializer.to_value serializeUser (User.mk 1 [User.mk 2 []]) =
      .ok (Value.obj [("friends", Value.arr [Value.obj
        [("friends", Value.arr []), ("id", Value.num 2)]]),
        ("id", Value.num 1)]) :=
  ⟨serializeUser_eq, rfl⟩

end Serializers
